import Mathlib

/-!
# Verification of the IRC stream-framing layer (`stream.go`)

Shallow embedding of the frame decoder, frame encoder and connection
lifecycle of the repository's `stream.go`, together with theorems settling
the specification claims about them.

Bytes are modelled as natural numbers; the delimiter is the newline
byte `10`.  The external message codec (`ParseMessage`, `Message.Bytes`)
lives in this repository outside the framing layer, so it is modelled
from the spec as an opaque total wrapper around the raw bytes.
-/

namespace IrcStream

/-- A byte on the wire. -/
abbrev Byte := Nat

/-- The constant `delim` of `stream.go`: `const delim byte` is the newline byte. -/
def delim : Byte := 10

/-- I/O errors surfaced by the transport: end-of-stream, closed resource,
or any other read/write error (tagged by a code). -/
inductive IOErr where
  | eof : IOErr
  | closed : IOErr
  | other : Nat → IOErr
deriving DecidableEq, Repr

/-- Modelled from the spec: a structured Message is an external entity;
this layer "treats it only as something producible from raw bytes (decode)
and convertible to raw bytes (encode)", with "no internal invariant on its
shape".  The parser `ParseMessage` and serializer `Message.Bytes` are code
of this repository outside the framing layer, so the Message is modelled
as just carrying its raw bytes. -/
structure Message where
  raw : List Byte
deriving DecidableEq, Repr

/-- Modelled from the spec: `parseLine(rawBytes) -> Message`, a total
function mapping one raw line deterministically to a Message; no failure
is signalled through the framing layer. -/
def ParseMessage (line : List Byte) : Message := ⟨line⟩

/-- Modelled from the spec: `serialize(Message) -> rawBytes`, which "must
include any protocol-required line terminator itself; this layer does not
append one". -/
def Message.Bytes (m : Message) : List Byte := m.raw

/-!
## Frame decoder

`bufio.Reader.ReadString(delim)` reads until and including the first
occurrence of the delimiter.  `readUntil` is its pure counterpart on the
bytes available from the stream: it returns the delimiter-terminated line
together with the remaining buffered bytes, or `none` when no delimiter
occurs among the available bytes (in which case the concrete reader
consumes everything available and reports the stream's terminal error).
-/

/-- Split off the shortest prefix ending in the delimiter `d`.
Returns `some (line, rest)` with `line` including the delimiter,
or `none` when `d` does not occur. -/
def readUntil (d : Byte) : List Byte → Option (List Byte × List Byte)
  | [] => none
  | b :: bs =>
    if b = d then some ([b], bs)
    else
      match readUntil d bs with
      | some (ln, rest) => some (b :: ln, rest)
      | none => none

/-- The `Decoder` of `stream.go`: a buffered read cursor over the
transport, plus the transient `line` field.  The transport's inbound side
is modelled by the byte sequence `buffered` still available from it and
the terminal error `ended` its read reports once those bytes are
exhausted (`IOErr.eof` for a cleanly closed stream). -/
structure Decoder where
  buffered : List Byte
  ended : IOErr
  line : List Byte
deriving DecidableEq, Repr

/-- Function `NewDecoder` from `stream.go`: a fresh buffered reader over a stream,
with the transient `line` field empty. -/
def NewDecoder (input : List Byte) (ended : IOErr) : Decoder :=
  ⟨input, ended, []⟩

/-- Method `Decoder.Decode` from `stream.go`, as a state transformer:
`dec.line, err = dec.reader.ReadString(delim)`; on error return
`(nil, err)` (the partial bytes stay in `dec.line`); on success return
`ParseMessage(dec.line)`.  The mutex is not visible in the sequential
model; the concurrent behaviour is modelled separately below. -/
def Decoder.Decode (dec : Decoder) : (Option Message × Option IOErr) × Decoder :=
  match readUntil delim dec.buffered with
  | some (ln, rest) =>
    ((some (ParseMessage ln), none), { dec with buffered := rest, line := ln })
  | none =>
    ((none, some dec.ended), { dec with buffered := [], line := dec.buffered })

/-- Runs `n` sequential `Decode` calls, collecting the returned pairs. -/
def Decoder.decodeN : Nat → Decoder → List (Option Message × Option IOErr) × Decoder
  | 0, dec => ([], dec)
  | n + 1, dec =>
    let r := dec.Decode
    let rs := Decoder.decodeN n r.2
    (r.1 :: rs.1, rs.2)

/-- A delimiter-terminated line: a (possibly empty) delimiter-free body
followed by the delimiter byte. -/
def IsLine (l : List Byte) : Prop :=
  ∃ core, delim ∉ core ∧ l = core ++ [delim]

theorem readUntil_line (core rest : List Byte) (h : delim ∉ core) :
    readUntil delim (core ++ [delim] ++ rest) = some (core ++ [delim], rest) := by
  induction core with
  | nil => simp [readUntil]
  | cons b bs ih =>
    have hb : b ≠ delim := fun hbd => h (hbd ▸ List.mem_cons_self b bs)
    have hbs : delim ∉ bs := fun hm => h (List.mem_cons_of_mem b hm)
    have ih' := ih hbs
    rw [List.append_assoc] at ih'
    simp only [List.singleton_append] at ih'
    simp [readUntil, hb, ih']

theorem readUntil_none (l : List Byte) (h : delim ∉ l) :
    readUntil delim l = none := by
  induction l with
  | nil => rfl
  | cons b bs ih =>
    have hb : b ≠ delim := fun hbd => h (hbd ▸ List.mem_cons_self b bs)
    have hbs : delim ∉ bs := fun hm => h (List.mem_cons_of_mem b hm)
    simp [readUntil, hb, ih hbs]

/-- What `readUntil` returns is a split of the input into a
delimiter-terminated line and the remainder. -/
theorem readUntil_sound (d : Byte) :
    ∀ (l ln rest : List Byte), readUntil d l = some (ln, rest) →
      l = ln ++ rest ∧ ln.getLast? = some d := by
  intro l
  induction l with
  | nil => intro ln rest h; simp [readUntil] at h
  | cons b bs ih =>
    intro ln rest h
    by_cases hb : b = d
    · simp [readUntil, hb] at h
      obtain ⟨h1, h2⟩ := h
      subst h1; subst h2; subst hb
      exact ⟨rfl, rfl⟩
    · simp [readUntil, hb] at h
      rcases hm : readUntil d bs with _ | ⟨ln', rest'⟩
      · rw [hm] at h; simp at h
      · rw [hm] at h
        simp at h
        obtain ⟨h1, h2⟩ := h
        obtain ⟨hsplit, hlast⟩ := ih ln' rest' hm
        subst h1; subst h2
        refine ⟨by simp [hsplit], ?_⟩
        simp [List.getLast?_cons, hlast]

/-- C1: for a stream holding `N` delimiter-terminated lines (followed by
any further bytes), `N` sequential `Decode` calls each succeed and return
`ParseMessage` of the corresponding raw line, delimiter included, in
stream order; afterwards the read cursor sits exactly past the consumed
lines (no byte re-read, no byte skipped) and the stream's terminal
condition is untouched. -/
theorem decode_sequential_lines (lines : List (List Byte)) (rest : List Byte)
    (e : IOErr) (l0 : List Byte) (h : ∀ l ∈ lines, IsLine l) :
    (Decoder.decodeN lines.length ⟨lines.flatten ++ rest, e, l0⟩).1 =
        lines.map (fun l => (some (ParseMessage l), none)) ∧
      (Decoder.decodeN lines.length ⟨lines.flatten ++ rest, e, l0⟩).2.buffered = rest ∧
      (Decoder.decodeN lines.length ⟨lines.flatten ++ rest, e, l0⟩).2.ended = e := by
  induction lines generalizing l0 with
  | nil => simp [Decoder.decodeN]
  | cons l ls ih =>
    obtain ⟨core, hcore, hl⟩ := h l (List.mem_cons_self l ls)
    have hread : readUntil delim ((l :: ls).flatten ++ rest) =
        some (l, ls.flatten ++ rest) := by
      subst hl
      have hr := readUntil_line core (ls.flatten ++ rest) hcore
      rw [List.append_assoc] at hr
      simpa [List.append_assoc] using hr
    have hs : ∀ x ∈ ls, IsLine x := fun x hx => h x (List.mem_cons_of_mem l hx)
    have ihh := ih l hs
    simp only [List.length_cons, Decoder.decodeN, Decoder.Decode, hread,
      List.map_cons]
    exact ⟨by rw [ihh.1], ihh.2.1, ihh.2.2⟩

theorem decode_sequential_lines_witness :
    (Decoder.decodeN 2 ⟨[80, 10, 81, 10, 65], IOErr.eof, []⟩).1 =
        [(some (ParseMessage [80, 10]), none),
         (some (ParseMessage [81, 10]), none)] ∧
      (Decoder.decodeN 2 ⟨[80, 10, 81, 10, 65], IOErr.eof, []⟩).2.buffered = [65] := by
  have h := decode_sequential_lines [[80, 10], [81, 10]] [65] IOErr.eof []
    (by
      intro l hl
      simp only [List.mem_cons, List.not_mem_nil, or_false] at hl
      rcases hl with h1 | h1 <;> subst h1
      · exact ⟨[80], by decide, rfl⟩
      · exact ⟨[81], by decide, rfl⟩)
  exact ⟨h.1, h.2.1⟩

/-- C4: whenever the read fails (no delimiter among the available bytes,
so the reader runs into the stream's terminal condition), `Decode` returns
the terminal error value itself together with no Message; whenever the
read succeeds, `Decode` returns a parsed Message with no error, and the
raw line handed to the parser is a complete frame ending in the
delimiter — never a partial one. -/
theorem decode_error_and_frames (dec : Decoder) :
    (readUntil delim dec.buffered = none →
        dec.Decode.1 = (none, some dec.ended)) ∧
      (∀ ln rest, readUntil delim dec.buffered = some (ln, rest) →
        dec.Decode.1 = (some (ParseMessage ln), none) ∧
          ln.getLast? = some delim) := by
  constructor
  · intro hn
    simp [Decoder.Decode, hn]
  · intro ln rest hr
    refine ⟨by simp [Decoder.Decode, hr], ?_⟩
    exact (readUntil_sound delim dec.buffered ln rest hr).2

theorem decode_error_and_frames_witness :
    (Decoder.Decode ⟨[65, 66], IOErr.closed, []⟩).1 = (none, some IOErr.closed) ∧
      (Decoder.Decode ⟨[65, 10, 66], IOErr.eof, []⟩).1 =
        (some (ParseMessage [65, 10]), none) :=
  ⟨(decode_error_and_frames ⟨[65, 66], IOErr.closed, []⟩).1 (by decide),
    ((decode_error_and_frames ⟨[65, 10, 66], IOErr.eof, []⟩).2
      [65, 10] [66] (by decide)).1⟩

/-- C10: if the stream ends (or errors) before a delimiter is seen,
`Decode` returns only `(nil, error)`: the partial bytes read so far are
not surfaced to the caller in any form — they remain solely in the
decoder's transient `line` field. -/
theorem decode_unterminated_dropped (dec : Decoder) (h : delim ∉ dec.buffered) :
    dec.Decode = ((none, some dec.ended), ⟨[], dec.ended, dec.buffered⟩) := by
  simp [Decoder.Decode, readUntil_none dec.buffered h]

theorem decode_unterminated_dropped_witness :
    Decoder.Decode ⟨[80, 73], IOErr.eof, []⟩ =
      ((none, some IOErr.eof), ⟨[], IOErr.eof, [80, 73]⟩) :=
  decode_unterminated_dropped ⟨[80, 73], IOErr.eof, []⟩ (by decide)

/-!
## Frame encoder

The outbound side of the transport is modelled by the bytes written so
far plus a closed flag.  `transportWrite` is modelled from the spec's
transport interface: blocking `write(bytes) -> (count, error)`, which
"must fail immediately with a closed-resource error" once the transport
is closed.  `Encoder.Write` and `Encoder.Encode` are the functions of
`stream.go` over that transport.
-/

/-- The transport's outbound side: bytes that have reached it, and
whether it has been closed. -/
structure WriterState where
  out : List Byte
  closed : Bool
deriving DecidableEq, Repr

/-- Modelled from the spec: the Transport's `write(bytes) -> (count,
error)`.  An open transport accepts the whole payload; a closed one
fails with a closed-resource error and accepts nothing. -/
def transportWrite (st : WriterState) (p : List Byte) :
    (Nat × Option IOErr) × WriterState :=
  if st.closed then ((0, some IOErr.closed), st)
  else ((p.length, none), { st with out := st.out ++ p })

/-- Method `Encoder.Write` from `stream.go`: under the encoder's mutex,
`n, err = enc.writer.Write(p)` — the payload is forwarded to the
underlying writer unconditionally (there is no empty-payload check) and
its count and error are returned.  The mutex is invisible sequentially;
the concurrent behaviour is modelled by `WStep` below. -/
def Encoder.Write (st : WriterState) (p : List Byte) :
    (Nat × Option IOErr) × WriterState :=
  transportWrite st p

/-- Method `Encoder.Encode` from `stream.go`: `_, err = enc.Write(m.Bytes())`;
only the error is returned. -/
def Encoder.Encode (st : WriterState) (m : Message) :
    Option IOErr × WriterState :=
  ((Encoder.Write st m.Bytes).1.2, (Encoder.Write st m.Bytes).2)

/-- C5: `Encode m` is exactly one `Write` call whose payload is exactly
the serialized bytes `m.Bytes` (state and error of `Encode` coincide
with those of that single `Write`); on an open transport the bytes
reaching it are extended by exactly `m.Bytes` — no delimiter or other
byte is appended by this layer — with no error, and `Encode` returns an
error exactly when that `Write` does. -/
theorem encode_single_write (st : WriterState) (m : Message) :
    Encoder.Encode st m =
        ((Encoder.Write st m.Bytes).1.2, (Encoder.Write st m.Bytes).2) ∧
      ((Encoder.Encode st m).1 = none ↔ (Encoder.Write st m.Bytes).1.2 = none) ∧
      (st.closed = false →
        (Encoder.Encode st m).2.out = st.out ++ m.Bytes ∧
          (Encoder.Encode st m).1 = none) := by
  refine ⟨rfl, Iff.rfl, fun h => ?_⟩
  simp [Encoder.Encode, Encoder.Write, transportWrite, h]

theorem encode_single_write_witness :
    (Encoder.Encode ⟨[], false⟩ ⟨[70, 10]⟩).2.out = [] ++ ([70, 10] : List Byte) ∧
      (Encoder.Encode ⟨[], false⟩ ⟨[70, 10]⟩).1 = none :=
  (encode_single_write ⟨[], false⟩ ⟨[70, 10]⟩).2.2 rfl

/-- C6 counterexample: `Write` forwards even an empty payload to the
transport, so on a closed transport `Write []` returns the transport's
closed-resource error — not success. -/
theorem write_empty_fails_closed :
    (Encoder.Write ⟨[], true⟩ []).1 ≠ (0, none) := by decide

/-- C6 amended: on a transport that is not closed, `Write` with an empty
payload returns success with zero bytes written and leaves the stream
unchanged; the underlying transport write is still performed
unconditionally (it is merely trivially successful there), so on a
closed transport the transport's error is surfaced instead. -/
theorem write_empty_noop_open (st : WriterState) (h : st.closed = false) :
    Encoder.Write st [] = ((0, none), st) := by
  cases st with
  | mk o c =>
    cases h
    simp [Encoder.Write, transportWrite]

theorem write_empty_noop_open_witness :
    Encoder.Write ⟨[65], false⟩ [] = ((0, none), ⟨[65], false⟩) :=
  write_empty_noop_open ⟨[65], false⟩ rfl

/-!
## Concurrent writes

`K` threads each perform one `Encoder.Write` of payload `pay t`:
`enc.mu.Lock()`, then `enc.writer.Write(p)` while holding the mutex,
then `enc.mu.Unlock()`.  The transport write is modelled at byte
granularity, so that byte-level interleaving would be expressible; the
mutex is modelled by the step relation: a thread can enter the locked
region only when no thread is inside it.
-/

/-- Where a writing thread stands: not yet in the locked region, inside
it with the given bytes still to hand to the transport, or done. -/
inductive WStatus where
  | pending : WStatus
  | holding : List Byte → WStatus
  | finished : WStatus
deriving DecidableEq, Repr

/-- Global state of `K` threads racing on one `Encoder`: each thread's
status and the bytes that have reached the transport so far. -/
structure WSys (K : Nat) where
  status : Fin K → WStatus
  out : List Byte

/-- All threads about to call `Write`, nothing written yet. -/
def WSys.init (K : Nat) : WSys K := ⟨fun _ => WStatus.pending, []⟩

/-- No thread is inside the locked region (the mutex is free). -/
def WSys.noHolder {K : Nat} (s : WSys K) : Prop :=
  ∀ t r, s.status t ≠ WStatus.holding r

/-- One atomic step of the racing writers: acquire the encoder's mutex
(only when free), hand one byte of the held payload to the transport
while holding it, or release it once the payload is exhausted. -/
inductive WStep {K : Nat} (pay : Fin K → List Byte) : WSys K → WSys K → Prop
  | acquire (s : WSys K) (t : Fin K) (h : s.status t = WStatus.pending)
      (hfree : s.noHolder) :
      WStep pay s ⟨Function.update s.status t (WStatus.holding (pay t)), s.out⟩
  | put (s : WSys K) (t : Fin K) (b : Byte) (rest : List Byte)
      (h : s.status t = WStatus.holding (b :: rest)) :
      WStep pay s ⟨Function.update s.status t (WStatus.holding rest), s.out ++ [b]⟩
  | release (s : WSys K) (t : Fin K) (h : s.status t = WStatus.holding []) :
      WStep pay s ⟨Function.update s.status t WStatus.finished, s.out⟩

/-- Invariant of the racing writers: some list `ord` records the threads
whose `Write` already completed, in completion order; the transport
holds their payloads concatenated in that order, followed by the written
prefix of the at-most-one thread currently holding the mutex. -/
def WInv {K : Nat} (pay : Fin K → List Byte) (s : WSys K) : Prop :=
  ∃ ord : List (Fin K), ord.Nodup ∧
    (∀ t, s.status t = WStatus.finished ↔ t ∈ ord) ∧
    ((∃ t pre rest, s.status t = WStatus.holding rest ∧ pay t = pre ++ rest ∧
        s.out = (ord.map pay).flatten ++ pre ∧
        ∀ u r, u ≠ t → s.status u ≠ WStatus.holding r)
      ∨ (s.noHolder ∧ s.out = (ord.map pay).flatten))

theorem WInv_init {K : Nat} (pay : Fin K → List Byte) :
    WInv pay (WSys.init K) := by
  refine ⟨[], List.nodup_nil, ?_, Or.inr ⟨?_, rfl⟩⟩
  · intro t
    simp [WSys.init]
  · intro t r
    simp [WSys.init]

theorem WInv_step {K : Nat} (pay : Fin K → List Byte) (s s' : WSys K)
    (hstep : WStep pay s s') (hinv : WInv pay s) : WInv pay s' := by
  obtain ⟨ord, hnd, hfin, hcase⟩ := hinv
  cases hstep with
  | acquire t ht hfree =>
    rcases hcase with ⟨u, pre, rest, hu, _, _, _⟩ | ⟨_, hout⟩
    · exact absurd hu (hfree u rest)
    refine ⟨ord, hnd, ?_, Or.inl ⟨t, [], pay t, ?_, by simp, ?_, ?_⟩⟩
    · intro u
      rcases eq_or_ne u t with h | h
      · subst h
        simp only [Function.update_same]
        constructor
        · intro hc; cases hc
        · intro hc
          exact absurd ((hfin u).mpr hc) (by rw [ht]; intro hc'; cases hc')
      · simp only [Function.update_noteq h]
        exact hfin u
    · simp [Function.update_same]
    · simpa using hout
    · intro u r hut
      simp only [Function.update_noteq hut]
      exact hfree u r
  | put t b rest ht =>
    rcases hcase with ⟨u, pre, rest', hu, hsplit, hout, huniq⟩ | ⟨hnh, _⟩
    swap
    · exact absurd ht (hnh t (b :: rest))
    have hut : t = u := by
      by_contra hne
      exact absurd ht (huniq t (b :: rest) hne)
    subst hut
    have hrest : rest' = b :: rest := by
      rw [ht] at hu
      exact (WStatus.holding.injEq _ _ ▸ hu.symm)
    subst hrest
    refine ⟨ord, hnd, ?_, Or.inl ⟨t, pre ++ [b], rest, ?_, ?_, ?_, ?_⟩⟩
    · intro u
      rcases eq_or_ne u t with h | h
      · subst h
        simp only [Function.update_same]
        constructor
        · intro hc; cases hc
        · intro hc
          exact absurd ((hfin u).mpr hc) (by rw [ht]; intro hc'; cases hc')
      · simp only [Function.update_noteq h]
        exact hfin u
    · simp [Function.update_same]
    · simpa [List.append_assoc] using hsplit
    · simp [hout, List.append_assoc]
    · intro u r hune
      simp only [Function.update_noteq hune]
      exact huniq u r hune
  | release t ht =>
    rcases hcase with ⟨u, pre, rest', hu, hsplit, hout, huniq⟩ | ⟨hnh, _⟩
    swap
    · exact absurd ht (hnh t [])
    have hut : t = u := by
      by_contra hne
      exact absurd ht (huniq t [] hne)
    subst hut
    have hrest : rest' = [] := by
      rw [ht] at hu
      exact (WStatus.holding.injEq _ _ ▸ hu.symm)
    subst hrest
    have htno : t ∉ ord := by
      intro hmem
      have := (hfin t).mpr hmem
      rw [ht] at this
      cases this
    refine ⟨ord ++ [t], ?_, ?_, Or.inr ⟨?_, ?_⟩⟩
    · simpa [List.nodup_append] using ⟨hnd, htno⟩
    · intro u
      rcases eq_or_ne u t with h | h
      · subst h
        simp [Function.update_same]
      · simp only [Function.update_noteq h]
        simp only [List.mem_append, List.mem_singleton]
        constructor
        · intro hc
          exact Or.inl ((hfin u).mp hc)
        · intro hc
          rcases hc with hc | hc
          · exact (hfin u).mpr hc
          · exact absurd hc h
    · intro u r
      rcases eq_or_ne u t with h | h
      · subst h
        simp [Function.update_same]
      · simp only [Function.update_noteq h]
        exact huniq u r h
    · rw [hout]
      simp at hsplit
      simp [hsplit]

theorem WInv_trace {K : Nat} (pay : Fin K → List Byte) (s : WSys K)
    (htrace : Relation.ReflTransGen (WStep pay) (WSys.init K) s) :
    WInv pay s := by
  induction htrace with
  | refl => exact WInv_init pay
  | tail _ hstep ih => exact WInv_step pay _ _ hstep ih

/-- C2: in any complete concurrent execution of `K` `Write` calls with
payloads `pay` (each thread acquires the encoder's mutex, hands its
bytes to the transport, releases), the bytes that reached the transport
are exactly the concatenation of the `K` complete payloads in some
serialization order — never a byte-level interleaving of two calls. -/
theorem concurrent_writes_serialize {K : Nat} (pay : Fin K → List Byte)
    (s : WSys K)
    (htrace : Relation.ReflTransGen (WStep pay) (WSys.init K) s)
    (hdone : ∀ t, s.status t = WStatus.finished) :
    ∃ ord : List (Fin K), ord.Perm (List.finRange K) ∧
      s.out = (ord.map pay).flatten := by
  obtain ⟨ord, hnd, hfin, hcase⟩ := WInv_trace pay s htrace
  rcases hcase with ⟨t, pre, rest, hh, _⟩ | ⟨_, hout⟩
  · rw [hdone t] at hh
    cases hh
  · refine ⟨ord, ?_, hout⟩
    rw [List.perm_ext_iff_of_nodup hnd (List.nodup_finRange K)]
    intro a
    simp [List.mem_finRange, (hfin a).symm.mpr (hdone a)]

/-- Payload of a single writing thread, used for a concrete trace. -/
def onePay : Fin 1 → List Byte := fun _ => [7]

/-- States of a complete one-thread `Write [7]` execution:
after acquiring the mutex. -/
def wOne1 : WSys 1 :=
  ⟨Function.update (WSys.init 1).status 0 (WStatus.holding [7]), []⟩

/-- Then, after handing the byte to the transport. -/
def wOne2 : WSys 1 :=
  ⟨Function.update wOne1.status 0 (WStatus.holding []), [7]⟩

/-- Finally, after releasing the mutex. -/
def wOne3 : WSys 1 :=
  ⟨Function.update wOne2.status 0 WStatus.finished, [7]⟩

theorem concurrent_writes_serialize_witness :
    ∃ s : WSys 1,
      Relation.ReflTransGen (WStep onePay) (WSys.init 1) s ∧
        ∃ ord : List (Fin 1), ord.Perm (List.finRange 1) ∧
          s.out = (ord.map onePay).flatten := by
  have h1 : WStep onePay (WSys.init 1) wOne1 :=
    WStep.acquire (WSys.init 1) 0 rfl (fun t r hc => by simp [WSys.init] at hc)
  have h2 : WStep onePay wOne1 wOne2 :=
    WStep.put wOne1 0 7 [] (by simp [wOne1])
  have h3 : WStep onePay wOne2 wOne3 :=
    WStep.release wOne2 0 (by simp [wOne2])
  have htr : Relation.ReflTransGen (WStep onePay) (WSys.init 1) wOne3 :=
    Relation.ReflTransGen.tail
      (Relation.ReflTransGen.tail (Relation.ReflTransGen.single h1) h2) h3
  have hdone : ∀ t, wOne3.status t = WStatus.finished := by
    intro t
    fin_cases t
    simp [wOne3]
  exact ⟨wOne3, htr, concurrent_writes_serialize onePay wOne3 htr hdone⟩

/-!
## Concurrent decodes and the shared `line` field

In `Decode`, `dec.line` is written while the mutex is held, but
`ParseMessage(dec.line)` reads it AFTER `dec.mu.Unlock()`.  A concurrent
`Decode` call is therefore two atomic steps: the locked read of one line
from the stream into the shared `line` field, and the unlocked parse of
whatever that shared field holds by the time the call reaches its return
statement.
-/

/-- Where a decoding thread stands: before its locked region, after it
(one line consumed into the shared field, parse still to run), returned
with an error, or returned with a Message. -/
inductive DPhase where
  | pending : DPhase
  | readDone : DPhase
  | retErr : IOErr → DPhase
  | returned : Message → DPhase
deriving DecidableEq, Repr

/-- Global state of `K` threads racing on one `Decoder`: the shared read
cursor, the stream's terminal error, the shared `line` field, and each
thread's phase. -/
structure DSys (K : Nat) where
  buffered : List Byte
  ended : IOErr
  lineField : List Byte
  status : Fin K → DPhase

/-- All threads about to call `Decode` on a fresh decoder. -/
def DSys.init (K : Nat) (input : List Byte) (e : IOErr) : DSys K :=
  ⟨input, e, [], fun _ => DPhase.pending⟩

/-- One atomic step of the racing decoders: the locked region
(`ReadString` into the shared `line` field, succeeding or failing), or
the unlocked `return ParseMessage(dec.line)` which parses whatever the
shared field currently holds. -/
inductive DStep {K : Nat} : DSys K → DSys K → Prop
  | readLine (s : DSys K) (t : Fin K) (ln rest : List Byte)
      (h : s.status t = DPhase.pending)
      (hr : readUntil delim s.buffered = some (ln, rest)) :
      DStep s ⟨rest, s.ended, ln, Function.update s.status t DPhase.readDone⟩
  | readFail (s : DSys K) (t : Fin K)
      (h : s.status t = DPhase.pending)
      (hr : readUntil delim s.buffered = none) :
      DStep s ⟨[], s.ended, s.buffered,
        Function.update s.status t (DPhase.retErr s.ended)⟩
  | parseRet (s : DSys K) (t : Fin K)
      (h : s.status t = DPhase.readDone) :
      DStep s ⟨s.buffered, s.ended, s.lineField,
        Function.update s.status t (DPhase.returned (ParseMessage s.lineField))⟩

/-- Trace states of two threads decoding the stream `"a\nb\n"`:
thread 0 consumes line `"a\n"` into the shared field. -/
def raceS1 : DSys 2 :=
  ⟨[98, 10], IOErr.eof, [97, 10],
    Function.update (DSys.init 2 [97, 10, 98, 10] IOErr.eof).status 0
      DPhase.readDone⟩

/-- Next, thread 1 consumes line `"b\n"`, overwriting the shared field. -/
def raceS2 : DSys 2 :=
  ⟨[], IOErr.eof, [98, 10], Function.update raceS1.status 1 DPhase.readDone⟩

/-- Then thread 1 parses the shared field and returns. -/
def raceS3 : DSys 2 :=
  ⟨[], IOErr.eof, [98, 10],
    Function.update raceS2.status 1
      (DPhase.returned (ParseMessage [98, 10]))⟩

/-- Finally thread 0 parses the shared field — which no longer holds the
line it consumed — and returns. -/
def raceS4 : DSys 2 :=
  ⟨[], IOErr.eof, [98, 10],
    Function.update raceS3.status 0
      (DPhase.returned (ParseMessage [98, 10]))⟩

/-- C3 exhibit: with stream `"a\nb\n"` and two concurrent `Decode`
calls, the execution in which both locked reads happen before either
unlocked `ParseMessage(dec.line)` makes BOTH calls return the Message of
line `"b\n"`, and the Message of line `"a\n"` is returned by no call:
the shared `line` field is read outside the mutex, so the claimed
distinctness fails on the code. -/
theorem decode_race_duplicates_line :
    Relation.ReflTransGen (DStep (K := 2))
        (DSys.init 2 [97, 10, 98, 10] IOErr.eof) raceS4 ∧
      raceS4.status 0 = DPhase.returned (ParseMessage [98, 10]) ∧
      raceS4.status 1 = DPhase.returned (ParseMessage [98, 10]) ∧
      raceS4.status 0 ≠ DPhase.returned (ParseMessage [97, 10]) ∧
      raceS4.status 1 ≠ DPhase.returned (ParseMessage [97, 10]) := by
  refine ⟨?_, by decide, by decide, by decide, by decide⟩
  have h1 : DStep (DSys.init 2 [97, 10, 98, 10] IOErr.eof) raceS1 :=
    DStep.readLine (DSys.init 2 [97, 10, 98, 10] IOErr.eof) 0
      [97, 10] [98, 10] rfl (by decide)
  have h2 : DStep raceS1 raceS2 :=
    DStep.readLine raceS1 1 [98, 10] [] (by decide) (by decide)
  have h3 : DStep raceS2 raceS3 :=
    DStep.parseRet raceS2 1 (by decide)
  have h4 : DStep raceS3 raceS4 :=
    DStep.parseRet raceS3 0 (by decide)
  exact Relation.ReflTransGen.tail
    (Relation.ReflTransGen.tail
      (Relation.ReflTransGen.tail (Relation.ReflTransGen.single h1) h2) h3) h4

/-!
## Connection construction and lifecycle

Transport instances are identified by reference: a `TransportId` stands
for one concrete `io.ReadWriteCloser`.  `NewConn` is the direct-wrap
constructor of `stream.go`; `Dial` is the dialing constructor,
parameterised by the external `net.Dial` operation; `Conn.Close` and the
operation sequences over a connection model the lifecycle.
-/

/-- A transport instance, identified by reference. -/
abbrev TransportId := Nat

/-- The reference wiring of a `Conn` from `stream.go`: which transport
instance the embedded `Encoder`'s `writer`, the embedded `Decoder`'s
buffered `reader`, and the private `conn` field refer to. -/
structure ConnRefs where
  encoderWriter : TransportId
  decoderSrc : TransportId
  conn : TransportId
deriving DecidableEq, Repr

/-- Function `NewConn` from `stream.go`: the encoder writer set to `rwc`,
`Decoder{reader: bufio.NewReader(rwc)}`, `conn: rwc` — a pure
constructor; no network operation occurs. -/
def NewConn (rwc : TransportId) : ConnRefs :=
  ⟨rwc, rwc, rwc⟩

/-- C9: the direct-wrap constructor returns a `Conn` whose encoder
writer, decoder read source, and owned close reference all refer to the
one given transport instance; being a pure function of that instance, it
performs no network operation. -/
theorem newConn_shares_transport (t : TransportId) :
    (NewConn t).encoderWriter = t ∧ (NewConn t).decoderSrc = t ∧
      (NewConn t).conn = t :=
  ⟨rfl, rfl, rfl⟩

/-- Function `Dial` from `stream.go`: `c, err := net.Dial("tcp", addr)`; on error
`return nil, err`; otherwise `return NewConn(c), nil`.  The external
`net.Dial` operation is passed in as `netDial`, mapping the address to
either a connection-establishment error or a fresh transport. -/
def Dial (netDial : String → Except IOErr TransportId) (addr : String) :
    Option ConnRefs × Option IOErr :=
  match netDial addr with
  | Except.error e => (none, some e)
  | Except.ok c => (some (NewConn c), none)

/-- C8: if the underlying network dial fails, `Dial` returns no
connection and exactly the connection-establishment error that the dial
produced, with no retry (the dial operation is consulted exactly once);
if it succeeds, `Dial` returns precisely what the direct-wrap
constructor `NewConn` yields on the established transport. -/
theorem dial_wraps_or_propagates (netDial : String → Except IOErr TransportId)
    (addr : String) :
    (∀ e, netDial addr = Except.error e → Dial netDial addr = (none, some e)) ∧
      (∀ c, netDial addr = Except.ok c →
        Dial netDial addr = (some (NewConn c), none)) := by
  constructor
  · intro e he
    simp [Dial, he]
  · intro c hc
    simp [Dial, hc]

theorem dial_wraps_or_propagates_witness :
    Dial (fun _ => Except.error (IOErr.other 1)) "irc.example.org:6667" =
        (none, some (IOErr.other 1)) ∧
      Dial (fun _ => Except.ok 5) "irc.example.org:6667" =
        (some (NewConn 5), none) :=
  ⟨(dial_wraps_or_propagates (fun _ => Except.error (IOErr.other 1))
      "irc.example.org:6667").1 (IOErr.other 1) rfl,
    (dial_wraps_or_propagates (fun _ => Except.ok 5)
      "irc.example.org:6667").2 5 rfl⟩

/-!
## Close and operation sequences

`Conn.Close` in `stream.go` is `return c.conn.Close()`: it forwards to
the transport unconditionally and the `Conn` keeps no open/closed state.
`ConnState` tracks a connection together with its transport, counting
the transport-close invocations.
-/

/-- One call issued by a caller on a connection. -/
inductive ConnOp where
  | closeCall : ConnOp
  | decodeCall : ConnOp
  | encodeCall : Message → ConnOp

/-- A connection with its transport: the decoder state, the outbound
writer state, and how many times the transport's close has been
invoked. -/
structure ConnState where
  dec : Decoder
  wr : WriterState
  closeCount : Nat

/-- Run one call: `Close` forwards to the transport's close (one
invocation, unconditionally — `stream.go` keeps no state and no guard);
`Decode`/`Encode` touch only their respective sides and never invoke
the transport's close. -/
def ConnState.runOp (c : ConnState) : ConnOp → ConnState
  | ConnOp.closeCall => { c with closeCount := c.closeCount + 1 }
  | ConnOp.decodeCall => { c with dec := c.dec.Decode.2 }
  | ConnOp.encodeCall m => { c with wr := (Encoder.Encode c.wr m).2 }

/-- Run a sequence of calls in order. -/
def ConnState.runOps (c : ConnState) : List ConnOp → ConnState
  | [] => c
  | op :: ops => (c.runOp op).runOps ops

/-- Whether a call is a `Close` call. -/
def ConnOp.isClose : ConnOp → Bool
  | ConnOp.closeCall => true
  | _ => false

/-- C7 counterexample: the `Conn` keeps no OPEN/CLOSED state and `Close`
forwards unconditionally, so the operation sequence `[Close, Close]`
invokes the transport's close twice — not at most once. -/
theorem conn_close_twice :
    ¬ ((ConnState.runOps ⟨NewDecoder [] IOErr.eof, ⟨[], false⟩, 0⟩
        [ConnOp.closeCall, ConnOp.closeCall]).closeCount ≤ 1) := by
  decide

/-- C7 amended: every `Close` call invokes the transport's close exactly
once and no other operation invokes it, so over any operation sequence
the transport's close is invoked exactly as many times as `Close`
appears — at most once only for sequences containing at most one
`Close`; the connection itself maintains no OPEN/CLOSED state. -/
theorem conn_close_per_call (c : ConnState) (ops : List ConnOp) :
    (c.runOps ops).closeCount = c.closeCount + ops.countP ConnOp.isClose := by
  induction ops generalizing c with
  | nil => simp [ConnState.runOps]
  | cons op ops ih =>
    cases op with
    | closeCall =>
      simp only [ConnState.runOps, ih, ConnState.runOp]
      simp [List.countP_cons, ConnOp.isClose]
      omega
    | decodeCall =>
      simp only [ConnState.runOps, ih, ConnState.runOp]
      simp [List.countP_cons, ConnOp.isClose]
    | encodeCall m =>
      simp only [ConnState.runOps, ih, ConnState.runOp]
      simp [List.countP_cons, ConnOp.isClose]

end IrcStream
